import Mathlib

/-!
Verification of the Moleskine browser notebook against its specification.

Each JavaScript module of the repository is shallowly embedded as Lean
definitions inside a namespace of the same name.  External browser and
library facilities (the Web Crypto SHA-256 digest, `marked.parse`,
`katex.renderToString`, `fetch` responses, `atob`, the current clock) are
modelled as explicit function or data parameters; the repository's own
logic is translated faithfully, statement by statement.  JavaScript
strings are modelled as `String` / `List Char`, numbers that stay small
integers as `Int` or `Nat`, objects used as string-keyed dictionaries as
association lists, and `localStorage` / `sessionStorage` cells as
association lists of strings.
-/

namespace Whiteboard

/-- A canvas snapshot (`canvas.toDataURL()` in the source); its contents are
irrelevant to the history logic, so snapshots are modelled as `Nat`. -/
abbrev Snapshot := Nat

/-- `MAX_HISTORY` from js/whiteboard.js. -/
def MAX_HISTORY : Nat := 50

/-- The mutable history state of the whiteboard module:
`let history = []; let historyIndex = -1;`.  `historyIndex` is a JS
number that can be `-1`, so it is an `Int`. -/
structure WBState where
  history : List Snapshot
  historyIndex : Int
deriving DecidableEq, Repr

/-- `saveState()` from js/whiteboard.js: truncate the redo tail
(`history = history.slice(0, historyIndex + 1)`), push the current canvas
snapshot, bump the index, and drop the oldest snapshot when the bound
`MAX_HISTORY` is exceeded (`history.shift(); historyIndex--`). -/
def saveState (snap : Snapshot) (s : WBState) : WBState :=
  if (s.history.take (s.historyIndex + 1).toNat ++ [snap]).length > MAX_HISTORY then
    ⟨(s.history.take (s.historyIndex + 1).toNat ++ [snap]).drop 1,
      s.historyIndex + 1 - 1⟩
  else
    ⟨s.history.take (s.historyIndex + 1).toNat ++ [snap], s.historyIndex + 1⟩

/-- `undo()` from js/whiteboard.js, restricted to its effect on the
history state: `if (historyIndex > 0) historyIndex--` (the canvas is then
repainted from `history[historyIndex]`). -/
def undo (s : WBState) : WBState :=
  if s.historyIndex > 0 then ⟨s.history, s.historyIndex - 1⟩ else s

/-- `redo()` from js/whiteboard.js:
`if (historyIndex < history.length - 1) historyIndex++`. -/
def redo (s : WBState) : WBState :=
  if s.historyIndex < (s.history.length : Int) - 1 then
    ⟨s.history, s.historyIndex + 1⟩
  else s

/-- `clear()` from js/whiteboard.js: the canvas is wiped and the blank
canvas is snapshotted via `saveState()`; on the history state it acts
exactly as a `saveState` of the blank snapshot. -/
def clear (snap : Snapshot) (s : WBState) : WBState :=
  saveState snap s

/-- `init()`'s effect on the history state: starting from
`history = [], historyIndex = -1` it performs the initial `saveState()`. -/
def initState (snap : Snapshot) : WBState :=
  saveState snap ⟨[], -1⟩

/-- One user-visible history operation. -/
inductive WBOp where
  | save : Snapshot → WBOp
  | undo : WBOp
  | redo : WBOp
  | clear : Snapshot → WBOp
deriving DecidableEq, Repr

/-- Apply one operation to the history state. -/
def applyOp (s : WBState) : WBOp → WBState
  | .save snap => saveState snap s
  | .undo => undo s
  | .redo => redo s
  | .clear snap => clear snap s

/-- Run a sequence of operations from a state. -/
def run (s : WBState) (ops : List WBOp) : WBState :=
  ops.foldl applyOp s

/-- The history invariant claimed by the spec: the snapshot stack is
bounded by `MAX_HISTORY` and the index points into it. -/
def Inv (s : WBState) : Prop :=
  0 ≤ s.historyIndex ∧ s.historyIndex < (s.history.length : Int) ∧
    s.history.length ≤ MAX_HISTORY

instance : DecidablePred Inv := fun s => by
  unfold Inv; infer_instance

theorem inv_initState (snap : Snapshot) : Inv (initState snap) := by
  unfold initState saveState Inv MAX_HISTORY
  simp

theorem inv_saveState {s : WBState} (h : Inv s) (snap : Snapshot) :
    Inv (saveState snap s) := by
  obtain ⟨h0, h1, h2⟩ := h
  unfold saveState Inv MAX_HISTORY at *
  split <;>
    dsimp only <;>
    simp only [List.length_drop, List.length_append, List.length_take,
      List.length_cons, List.length_nil] at * <;>
    push_cast <;> omega

theorem inv_undo {s : WBState} (h : Inv s) : Inv (undo s) := by
  obtain ⟨h0, h1, h2⟩ := h
  unfold undo Inv at *
  split
  · dsimp only
    omega
  · omega

theorem inv_redo {s : WBState} (h : Inv s) : Inv (redo s) := by
  obtain ⟨h0, h1, h2⟩ := h
  unfold redo Inv at *
  split
  · dsimp only
    omega
  · omega

theorem inv_applyOp {s : WBState} (h : Inv s) (op : WBOp) :
    Inv (applyOp s op) := by
  cases op with
  | save snap => exact inv_saveState h snap
  | undo => exact inv_undo h
  | redo => exact inv_redo h
  | clear snap => exact inv_saveState h snap

theorem inv_run {s : WBState} (h : Inv s) (ops : List WBOp) :
    Inv (run s ops) := by
  induction ops generalizing s with
  | nil => exact h
  | cons op ops ih => exact ih (inv_applyOp h op)

end Whiteboard

/-- A JavaScript object used as a string-keyed dictionary, modelled as an
association list (JS object keys are unique; `setKey` keeps them so). -/
abbrev JsDict (α : Type) := List (String × α)

/-- Property lookup `obj[k]`, returning `none` for a missing key. -/
def lookupKey {α : Type} (k : String) : JsDict α → Option α
  | [] => none
  | (k', v) :: rest => if k' = k then some v else lookupKey k rest

/-- Property assignment `obj[k] = v`: overwrite the binding when the key
is present, append it otherwise. -/
def setKey {α : Type} (k : String) (v : α) : JsDict α → JsDict α
  | [] => [(k, v)]
  | (k', v') :: rest =>
      if k' = k then (k, v) :: rest else (k', v') :: setKey k v rest

/-- Property removal `delete obj[k]`. -/
def eraseKey {α : Type} (k : String) (m : JsDict α) : JsDict α :=
  m.filter (fun p => p.1 ≠ k)

theorem lookupKey_setKey_self {α : Type} (k : String) (v : α) (m : JsDict α) :
    lookupKey k (setKey k v m) = some v := by
  induction m with
  | nil => simp [setKey, lookupKey]
  | cons p rest ih =>
    obtain ⟨k', v'⟩ := p
    by_cases h : k' = k
    · simp [setKey, lookupKey, h]
    · simp [setKey, lookupKey, h, ih]

theorem lookupKey_setKey_other {α : Type} {k j : String} (hne : j ≠ k)
    (v : α) (m : JsDict α) :
    lookupKey j (setKey k v m) = lookupKey j m := by
  induction m with
  | nil => simp [setKey, lookupKey, Ne.symm hne]
  | cons p rest ih =>
    obtain ⟨k', v'⟩ := p
    by_cases h : k' = k
    · subst h
      simp [setKey, lookupKey, Ne.symm hne]
    · by_cases h' : k' = j <;> simp [setKey, lookupKey, h, h', hne, ih]

theorem lookupKey_eraseKey_self {α : Type} (k : String) (m : JsDict α) :
    lookupKey k (eraseKey k m) = none := by
  induction m with
  | nil => rfl
  | cons p rest ih =>
    obtain ⟨k', v'⟩ := p
    by_cases h : k' = k
    · simpa [eraseKey, List.filter_cons, h] using ih
    · simpa [eraseKey, List.filter_cons, lookupKey, h] using ih

theorem lookupKey_of_notMem {α : Type} {k : String} {m : JsDict α}
    (h : k ∉ m.map Prod.fst) : lookupKey k m = none := by
  induction m with
  | nil => rfl
  | cons p rest ih =>
    simp only [List.map_cons, List.mem_cons] at h
    push_neg at h
    have h1 : ¬ p.1 = k := fun hk => h.1 hk.symm
    simp [lookupKey, h1, ih h.2]

namespace Storage

/-- A draft record as written by `saveDraft`:
`{ content, title, updatedAt: new Date().toISOString() }`. -/
structure Draft where
  content : String
  title : String
  updatedAt : String
deriving DecidableEq, Repr

/-- The drafts dictionary stored (JSON-serialised) under
`moleskine_drafts`; the JSON round-trip is the identity on it. -/
abbrev DraftsMap := JsDict Draft

/-- `saveDraft(id, content, title)` from js/storage.js: overwrite
`drafts[id]` with the new record and store the map back.  `now` stands
for `new Date().toISOString()`. -/
def saveDraft (id content title now : String) (m : DraftsMap) : DraftsMap :=
  setKey id ⟨content, title, now⟩ m

/-- `getDraft(id)` from js/storage.js: `return drafts[id] || null` (a
draft record is a JS object, hence never falsy). -/
def getDraft (id : String) (m : DraftsMap) : Option Draft :=
  lookupKey id m

/-- `deleteDraft(id)` from js/storage.js: `delete drafts[id]`. -/
def deleteDraft (id : String) (m : DraftsMap) : DraftsMap :=
  eraseKey id m

/-- A JSON scalar value as it appears in the settings object: the
defaults use strings (`'light'`, `'split'`) and a number (`16`). -/
inductive JVal where
  | s : String → JVal
  | n : Int → JVal
deriving DecidableEq, Repr

/-- The settings object under the key `moleskine_settings`. -/
abbrev SettingsMap := JsDict JVal

/-- The stored settings cell: `absent` models `localStorage` holding
nothing under `moleskine_settings`; `corrupt` models a stored string on
which `JSON.parse` throws (or yields a falsy value); `val` a stored
settings object (the JSON round-trip is the identity on it). -/
inductive SettingsCell where
  | absent
  | corrupt
  | val : SettingsMap → SettingsCell

/-- The default settings object from js/storage.js. -/
def defaultSettings : SettingsMap :=
  [("theme", .s "light"), ("fontSize", .n 16), ("editorMode", .s "split")]

/-- `getSettings()` from js/storage.js:
`JSON.parse(localStorage.getItem(SETTINGS_KEY)) || defaults`, with the
same defaults returned from the `catch` branch. -/
def getSettings : SettingsCell → SettingsMap
  | .absent => defaultSettings
  | .corrupt => defaultSettings
  | .val m => m

/-- `saveSettings(settings)` from js/storage.js: merge
`{ ...current, ...settings }` (later keys override) and store the
result; returns the updated object together with the new cell. -/
def saveSettings (upd : SettingsMap) (cell : SettingsCell) :
    SettingsMap × SettingsCell :=
  let updated := upd.foldl (fun acc kv => setKey kv.1 kv.2 acc) (getSettings cell)
  (updated, .val updated)

/-- `setSetting(key, value)` from js/storage.js:
`saveSettings({ [key]: value })`. -/
def setSetting (key : String) (value : JVal) (cell : SettingsCell) :
    SettingsMap × SettingsCell :=
  saveSettings [(key, value)] cell

/-- An entry of the recent-notebooks list as written by `addToRecent`. -/
structure RecentEntry where
  id : String
  title : String
  accessedAt : String
deriving DecidableEq, Repr

/-- `addToRecent(notebook)` from js/storage.js: drop any entry with the
same id, unshift the fresh entry, and keep only the first 10
(`recent.slice(0, 10)`). -/
def addToRecent (nbId nbTitle now : String) (recent : List RecentEntry) :
    List RecentEntry :=
  ((⟨nbId, nbTitle, now⟩ : RecentEntry) ::
    recent.filter (fun r => r.id ≠ nbId)).take 10

end Storage

/-- **C1.** The whiteboard undo/redo history is a bounded snapshot stack:
after initialization and any sequence of `saveState`, `undo`, `redo`, and
`clear` operations, the history list holds at most 50 snapshots
(`MAX_HISTORY`) and the current index satisfies
`0 ≤ historyIndex < history.length`. -/
theorem whiteboard_history_bounded (snap : Whiteboard.Snapshot)
    (ops : List Whiteboard.WBOp) :
    let s := Whiteboard.run (Whiteboard.initState snap) ops
    0 ≤ s.historyIndex ∧ s.historyIndex < (s.history.length : Int) ∧
      s.history.length ≤ Whiteboard.MAX_HISTORY :=
  Whiteboard.inv_run (Whiteboard.inv_initState snap) ops

/-- **C2.** Whiteboard `undo` decrements the history index exactly when
`historyIndex > 0` and is a no-op at the oldest snapshot; `redo`
increments it exactly when `historyIndex < history.length - 1` and is a
no-op at the newest; and whenever `undo` applies, `redo` right after
`undo` restores the history index (with the history list untouched
throughout, so the displayed snapshot `history[historyIndex]` is
restored as well). -/
theorem whiteboard_undo_redo (s : Whiteboard.WBState)
    (_h0 : 0 ≤ s.historyIndex)
    (h1 : s.historyIndex < (s.history.length : Int)) :
    (0 < s.historyIndex →
      Whiteboard.undo s = ⟨s.history, s.historyIndex - 1⟩) ∧
    (s.historyIndex = 0 → Whiteboard.undo s = s) ∧
    (s.historyIndex < (s.history.length : Int) - 1 →
      Whiteboard.redo s = ⟨s.history, s.historyIndex + 1⟩) ∧
    (s.historyIndex = (s.history.length : Int) - 1 →
      Whiteboard.redo s = s) ∧
    (0 < s.historyIndex →
      Whiteboard.redo (Whiteboard.undo s) = s) := by
  refine ⟨?_, ?_, ?_, ?_, ?_⟩
  · intro hpos
    unfold Whiteboard.undo
    rw [if_pos hpos]
  · intro hz
    unfold Whiteboard.undo
    rw [if_neg (by omega)]
  · intro hlt
    unfold Whiteboard.redo
    rw [if_pos hlt]
  · intro htop
    unfold Whiteboard.redo
    rw [if_neg (by omega)]
  · intro hpos
    unfold Whiteboard.undo Whiteboard.redo
    rw [if_pos hpos]
    simp only
    rw [if_pos (by omega)]
    simp only [Int.sub_add_cancel]

/-- Witness for C2 at the concrete state `⟨[7, 8], 1⟩`. -/
theorem whiteboard_undo_redo_witness :
    (0 : Int) ≤ 1 ∧
      Whiteboard.redo (Whiteboard.undo ⟨[7, 8], 1⟩) =
        (⟨[7, 8], 1⟩ : Whiteboard.WBState) :=
  ⟨by decide,
    (whiteboard_undo_redo ⟨[7, 8], 1⟩ (by decide) (by decide)).2.2.2.2
      (by decide)⟩

/-- **C5.** Draft persistence round-trips: after `Storage.saveDraft(id,
content, title)`, `Storage.getDraft(id)` returns a draft whose content
and title equal the saved values (with the save timestamp), drafts under
other ids are unchanged, and `getDraft` returns `null` for an id that
was never saved or was deleted. -/
theorem storage_draft_roundtrip (id content title now : String)
    (m : Storage.DraftsMap) :
    Storage.getDraft id (Storage.saveDraft id content title now m) =
      some ⟨content, title, now⟩ ∧
    (∀ j, j ≠ id →
      Storage.getDraft j (Storage.saveDraft id content title now m) =
        Storage.getDraft j m) ∧
    (∀ (j : String) (m' : Storage.DraftsMap), j ∉ m'.map Prod.fst →
      Storage.getDraft j m' = none) ∧
    (∀ (j : String) (m' : Storage.DraftsMap),
      Storage.getDraft j (Storage.deleteDraft j m') = none) := by
  refine ⟨?_, ?_, ?_, ?_⟩
  · exact lookupKey_setKey_self id _ m
  · intro j hj
    exact lookupKey_setKey_other hj _ m
  · intro j m' hj
    exact lookupKey_of_notMem hj
  · intro j m'
    exact lookupKey_eraseKey_self j m'

/-- Witness for C5 at concrete drafts. -/
theorem storage_draft_roundtrip_witness :
    Storage.getDraft "b" (Storage.saveDraft "a" "hello" "T" "2024" []) =
      Storage.getDraft "b" ([] : Storage.DraftsMap) :=
  (storage_draft_roundtrip "a" "hello" "T" "2024" []).2.1 "b" (by decide)

/-- **C7.** Settings persistence is merge-only: `Storage.setSetting(key,
value)` updates only that key and every other setting keeps its prior
value; when no settings were ever stored, or the stored value fails to
parse, `Storage.getSettings()` returns the defaults
`theme 'light'`, `fontSize 16`, `editorMode 'split'`. -/
theorem storage_settings_merge (key : String) (value : Storage.JVal)
    (cell : Storage.SettingsCell) :
    lookupKey key (Storage.setSetting key value cell).1 = some value ∧
    (∀ k', k' ≠ key →
      lookupKey k' (Storage.setSetting key value cell).1 =
        lookupKey k' (Storage.getSettings cell)) ∧
    Storage.getSettings .absent =
      [("theme", Storage.JVal.s "light"), ("fontSize", Storage.JVal.n 16),
        ("editorMode", Storage.JVal.s "split")] ∧
    Storage.getSettings .corrupt =
      [("theme", Storage.JVal.s "light"), ("fontSize", Storage.JVal.n 16),
        ("editorMode", Storage.JVal.s "split")] := by
  have hset : (Storage.setSetting key value cell).1 =
      setKey key value (Storage.getSettings cell) := rfl
  refine ⟨?_, ?_, rfl, rfl⟩
  · rw [hset]
    exact lookupKey_setKey_self key value _
  · intro k' hk'
    rw [hset]
    exact lookupKey_setKey_other hk' value _

/-- Witness for C7 at a concrete key and cell. -/
theorem storage_settings_merge_witness :
    lookupKey "fontSize"
        (Storage.setSetting "theme" (Storage.JVal.s "dark")
          Storage.SettingsCell.absent).1 =
      lookupKey "fontSize"
        (Storage.getSettings Storage.SettingsCell.absent) :=
  (storage_settings_merge "theme" (Storage.JVal.s "dark")
    Storage.SettingsCell.absent).2.1 "fontSize" (by decide)

/-- **C9.** After every `Storage.addToRecent(notebook)` call on a
recent list with pairwise-distinct ids, the result has at most 10
entries, pairwise-distinct ids, and the just-added notebook in front;
re-adding a notebook already present moves it to the front rather than
duplicating it (its id occurs exactly once). -/
theorem storage_recent_invariant (nbId nbTitle now : String)
    (recent : List Storage.RecentEntry)
    (hnd : (recent.map Storage.RecentEntry.id).Nodup) :
    (Storage.addToRecent nbId nbTitle now recent).length ≤ 10 ∧
    ((Storage.addToRecent nbId nbTitle now recent).map
      Storage.RecentEntry.id).Nodup ∧
    (Storage.addToRecent nbId nbTitle now recent).head? =
      some ⟨nbId, nbTitle, now⟩ ∧
    ((Storage.addToRecent nbId nbTitle now recent).map
      Storage.RecentEntry.id).count nbId = 1 := by
  have hr : Storage.addToRecent nbId nbTitle now recent =
      (⟨nbId, nbTitle, now⟩ : Storage.RecentEntry) ::
        (recent.filter (fun r => r.id ≠ nbId)).take 9 := by
    unfold Storage.addToRecent
    rw [List.take_cons (by norm_num)]
  have hsub :
      List.Sublist
        (((recent.filter (fun r => r.id ≠ nbId)).take 9).map
          Storage.RecentEntry.id)
        (recent.map Storage.RecentEntry.id) :=
    ((List.take_sublist _ _).trans (List.filter_sublist _)).map _
  have hnotin : nbId ∉
      ((recent.filter (fun r => r.id ≠ nbId)).take 9).map
        Storage.RecentEntry.id := by
    intro hmem
    rw [List.mem_map] at hmem
    obtain ⟨e, he, heq⟩ := hmem
    have hef : e ∈ recent.filter (fun r => r.id ≠ nbId) :=
      (List.take_sublist _ _).subset he
    have := List.of_mem_filter hef
    simp only [decide_eq_true_eq] at this
    exact this heq
  refine ⟨?_, ?_, ?_, ?_⟩
  · rw [hr]
    simp only [List.length_cons, List.length_take]
    omega
  · rw [hr, List.map_cons, List.nodup_cons]
    exact ⟨hnotin, hnd.sublist hsub⟩
  · rw [hr]
    rfl
  · rw [hr, List.map_cons, List.count_cons_self,
      List.count_eq_zero.mpr hnotin]

/-- Witness for C9 at a concrete recent list. -/
theorem storage_recent_invariant_witness :
    (Storage.addToRecent "a" "A" "2024"
      [⟨"a", "old", "2023"⟩, ⟨"b", "B", "2023"⟩]).length ≤ 10 :=
  (storage_recent_invariant "a" "A" "2024"
    [⟨"a", "old", "2023"⟩, ⟨"b", "B", "2023"⟩] (by decide)).1

/-- `true` iff `needle` is a prefix of `hay` (character lists). -/
def startsWithChars : List Char → List Char → Bool
  | [], _ => true
  | _ :: _, [] => false
  | a :: as, b :: bs => a = b && startsWithChars as bs

/-- JavaScript `hay.includes(needle)`: `needle` occurs as a contiguous
substring of `hay`. -/
def hasSubChars (needle : List Char) : List Char → Bool
  | [] => startsWithChars needle []
  | c :: rest => startsWithChars needle (c :: rest) || hasSubChars needle rest

/-- `hay.includes(needle)` on strings. -/
def hasSub (needle hay : String) : Bool :=
  hasSubChars needle.toList hay.toList

namespace Auth

/-- The browser storage visible to the Auth module: `localStorage` and
`sessionStorage`, each a string-to-string dictionary. -/
structure BrowserState where
  localS : JsDict String
  sessionS : JsDict String
deriving Repr

/-- `DEFAULT_PASSWORD_HASH` from js/auth.js. -/
def DEFAULT_PASSWORD_HASH : String :=
  "d950113d83977940d0160cdc6f59edd3da64ac03b4f7cd896a27921a45cd8fb4"

/-- `SESSION_KEY` from js/auth.js. -/
def SESSION_KEY : String := "moleskine_auth"

/-- `HASH_KEY` from js/auth.js. -/
def HASH_KEY : String := "moleskine_password_hash"

/-- `getPasswordHash()` from js/auth.js:
`localStorage.getItem(HASH_KEY) || DEFAULT_PASSWORD_HASH` (a missing key
yields `null` and an empty string is falsy, so both fall back to the
default). -/
def getPasswordHash (ls : JsDict String) : String :=
  match lookupKey HASH_KEY ls with
  | none => DEFAULT_PASSWORD_HASH
  | some h => if h = "" then DEFAULT_PASSWORD_HASH else h

/-- `isAuthenticated()` from js/auth.js:
`sessionStorage.getItem(SESSION_KEY) === 'true'`. -/
def isAuthenticated (st : BrowserState) : Bool :=
  lookupKey SESSION_KEY st.sessionS = some "true"

/-- `login(password)` from js/auth.js.  `sha` stands for the Web Crypto
SHA-256 lowercase-hex digest computed by the module's `sha256` helper.
Returns the JS return value together with the updated browser state. -/
def login (sha : String → String) (password : String) (st : BrowserState) :
    Bool × BrowserState :=
  if sha password = getPasswordHash st.localS then
    (true, ⟨st.localS, setKey SESSION_KEY "true" st.sessionS⟩)
  else
    (false, st)

end Auth

/-- **C4.** `Auth.login(password)` returns true iff the lowercase-hex
SHA-256 digest of the password equals the stored hash — the value under
the local-storage key `moleskine_password_hash`, or the built-in default
hash when none is stored; on success it marks the session authenticated,
and on failure the session authentication state is unchanged. -/
theorem auth_login_correct (sha : String → String) (password : String)
    (st : Auth.BrowserState) :
    ((Auth.login sha password st).1 = true ↔
      sha password = Auth.getPasswordHash st.localS) ∧
    (lookupKey Auth.HASH_KEY st.localS = none →
      Auth.getPasswordHash st.localS = Auth.DEFAULT_PASSWORD_HASH) ∧
    (∀ h, lookupKey Auth.HASH_KEY st.localS = some h → h ≠ "" →
      Auth.getPasswordHash st.localS = h) ∧
    ((Auth.login sha password st).1 = true →
      Auth.isAuthenticated (Auth.login sha password st).2 = true) ∧
    ((Auth.login sha password st).1 = false →
      (Auth.login sha password st).2 = st) := by
  refine ⟨?_, ?_, ?_, ?_, ?_⟩
  · by_cases hc : sha password = Auth.getPasswordHash st.localS <;>
      simp [Auth.login, hc]
  · intro hnone
    simp [Auth.getPasswordHash, hnone]
  · intro h hsome hne
    simp [Auth.getPasswordHash, hsome, hne]
  · intro hsucc
    by_cases hc : sha password = Auth.getPasswordHash st.localS
    · simp [Auth.login, hc, Auth.isAuthenticated, lookupKey_setKey_self]
    · simp [Auth.login, hc] at hsucc
  · intro hfail
    by_cases hc : sha password = Auth.getPasswordHash st.localS
    · simp [Auth.login, hc] at hfail
    · simp [Auth.login, hc]

/-- Witness for C4: logging in with the correct digest from an empty
browser state succeeds and authenticates the session. -/
theorem auth_login_correct_witness :
    Auth.isAuthenticated
      (Auth.login (fun _ => Auth.DEFAULT_PASSWORD_HASH) "pw" ⟨[], []⟩).2 =
      true :=
  (auth_login_correct (fun _ => Auth.DEFAULT_PASSWORD_HASH) "pw"
    ⟨[], []⟩).2.2.2.1 (by decide)

namespace GitHub

/-- The payload of a GitHub contents-API success response, as used by
`getFile` (`data.content` is base64; `atob` is modelled as a parameter). -/
structure GHContent where
  content : String
  sha : String
  path : String
deriving DecidableEq, Repr

/-- A `fetch` response as observed by `apiRequest`: `ok` and `status`
from the response object, and the `message` field of the JSON error
body — `none` when the body fails to parse (`.catch(() => ({}))`) or
carries no `message`. -/
structure GHResponse where
  ok : Bool
  status : Nat
  errMessage : Option String
  data : GHContent
deriving DecidableEq, Repr

/-- The error text thrown by `apiRequest` for a non-ok response:
`error.message || 'GitHub API error: ' + response.status` (a missing or
empty `message` is falsy). -/
def apiErrMsg (r : GHResponse) : String :=
  match r.errMessage with
  | some m => if m = "" then "GitHub API error: " ++ toString r.status else m
  | none => "GitHub API error: " ++ toString r.status

/-- `apiRequest(endpoint, options)` from js/github.js, with the network
response as input: throws when no token is configured, throws
`apiErrMsg` on a non-ok response, and returns the parsed body otherwise. -/
def apiRequest (token : Option String) (r : GHResponse) :
    Except String GHContent :=
  match token with
  | none => .error "GitHub token not configured"
  | some _ => if r.ok then .ok r.data else .error (apiErrMsg r)

/-- The file record returned by `getFile`:
`{ content: atob(data.content), sha: data.sha, path: data.path }`. -/
structure GHFile where
  content : String
  sha : String
  path : String
deriving DecidableEq, Repr

/-- `getFile(path)` from js/github.js: on an `apiRequest` error whose
message contains `'404'` it returns `null` (`e.message.includes('404')`),
otherwise it rethrows; on success it decodes the payload. -/
def getFile (atob : String → String) (token : Option String)
    (r : GHResponse) : Except String (Option GHFile) :=
  match apiRequest token r with
  | .ok d => .ok (some ⟨atob d.content, d.sha, d.path⟩)
  | .error e => if hasSub "404" e then .ok none else .error e

end GitHub

/-- Counterexample to **C6** as stated: on a 404 response whose error
body carries GitHub's actual message `"Not Found"` (which does not
contain the substring `'404'`), `getFile` propagates the error instead
of returning `null` — it misreports the missing file. -/
theorem github_getFile_404_counterexample :
    (⟨false, 404, some "Not Found", ⟨"", "", ""⟩⟩ : GitHub.GHResponse).status
        = 404 ∧
      GitHub.getFile id (some "tok")
          ⟨false, 404, some "Not Found", ⟨"", "", ""⟩⟩ =
        Except.error "Not Found" := by
  constructor
  · rfl
  · rfl

/-- **C6 (amended).** `GitHub.getFile(path)` returns `null` exactly when
the `apiRequest` error message contains the substring `'404'` — which is
the default message `GitHub API error: 404` used when the error body has
no usable `message` field; a failure (404 included) whose body message
lacks `'404'` is propagated as an error, and a successful response
yields the decoded file. -/
theorem github_getFile_classification (atob : String → String)
    (tok : String) (r : GitHub.GHResponse) :
    (GitHub.getFile atob (some tok) r = Except.ok none ↔
      (r.ok = false ∧ hasSub "404" (GitHub.apiErrMsg r) = true)) ∧
    (r.ok = false → hasSub "404" (GitHub.apiErrMsg r) = false →
      GitHub.getFile atob (some tok) r =
        Except.error (GitHub.apiErrMsg r)) ∧
    (r.ok = true →
      GitHub.getFile atob (some tok) r =
        Except.ok (some ⟨atob r.data.content, r.data.sha, r.data.path⟩)) := by
  cases hok : r.ok with
  | false =>
    cases h4 : hasSub "404" (GitHub.apiErrMsg r) with
    | true => simp [GitHub.getFile, GitHub.apiRequest, hok, h4]
    | false => simp [GitHub.getFile, GitHub.apiRequest, hok, h4]
  | true => simp [GitHub.getFile, GitHub.apiRequest, hok]

/-- Witness for the amended C6: a 403 response with body message
`"Forbidden"` is propagated as an error. -/
theorem github_getFile_classification_witness :
    GitHub.getFile id (some "tok")
        ⟨false, 403, some "Forbidden", ⟨"", "", ""⟩⟩ =
      Except.error
        (GitHub.apiErrMsg ⟨false, 403, some "Forbidden", ⟨"", "", ""⟩⟩) :=
  (github_getFile_classification id "tok"
    ⟨false, 403, some "Forbidden", ⟨"", "", ""⟩⟩).2.1 rfl (by decide)

namespace Markdown

/-- JavaScript whitespace as trimmed by `String.prototype.trim` (the
ASCII part, which is all the repository's strings use). -/
def isJsSpace (c : Char) : Bool :=
  c = ' ' || c = '\t' || c = '\n' || c = '\r' || c = '\x0b' || c = '\x0c'

/-- `s.trim()` on character lists. -/
def trimChars (l : List Char) : List Char :=
  ((l.dropWhile isJsSpace).reverse.dropWhile isJsSpace).reverse

theorem length_dropWhile_le_chars (p : Char → Bool) (l : List Char) :
    (l.dropWhile p).length ≤ l.length := by
  induction l with
  | nil => simp
  | cons a l ih =>
    by_cases h : p a
    · simp only [List.dropWhile, h]
      exact Nat.le_succ_of_le ih
    · simp [List.dropWhile, h]

/-- The character class `[^$]` of the block-math pattern. -/
def notDollar (c : Char) : Bool := c != '$'

/-- The character class `[^$\n]` of the inline-math pattern. -/
def notDollarNl (c : Char) : Bool := c != '$' && c != '\n'

/-- The global replace `html.replace(/\$\$([^$]+)\$\$/g, ...)` from
`processMath` in js/markdown.js, as a left-to-right scan: at a position
starting with `$$` whose following maximal `$`-free run is non-empty and
is closed by `$$`, replace the run by `kd(run.trim())` (the KaTeX
display-mode rendering) and continue after the closing `$$`; otherwise
emit one character and rescan from the next position, exactly as the
regex engine advances. -/
def replaceBlockMath (kd : List Char → List Char) : List Char → List Char
  | [] => []
  | c :: rest =>
    if c = '$' ∧ rest.head? = some '$' ∧
        rest.tail.takeWhile notDollar ≠ [] ∧
        ((rest.tail.dropWhile notDollar).tail).head? = some '$' then
      kd (trimChars (rest.tail.takeWhile notDollar)) ++
        replaceBlockMath kd ((rest.tail.dropWhile notDollar).tail.tail)
    else
      c :: replaceBlockMath kd rest
termination_by l => l.length
decreasing_by
  · have h1 : (rest.tail.dropWhile notDollar).length ≤ rest.tail.length :=
      length_dropWhile_le_chars notDollar rest.tail
    simp only [List.length_tail, List.length_cons] at *
    omega
  · simp

/-- The global replace `html.replace(/\$([^$\n]+)\$/g, ...)` from
`processMath` in js/markdown.js: at a position starting with `$` whose
following maximal `$`- and newline-free run is non-empty and closed by
`$`, replace the run by `ki(run.trim())` (the KaTeX inline-mode
rendering) and continue after the closing `$`; otherwise emit one
character and rescan. -/
def replaceInlineMath (ki : List Char → List Char) : List Char → List Char
  | [] => []
  | c :: rest =>
    if c = '$' ∧ rest.takeWhile notDollarNl ≠ [] ∧
        (rest.dropWhile notDollarNl).head? = some '$' then
      ki (trimChars (rest.takeWhile notDollarNl)) ++
        replaceInlineMath ki ((rest.dropWhile notDollarNl).tail)
    else
      c :: replaceInlineMath ki rest
termination_by l => l.length
decreasing_by
  · have h1 : (rest.dropWhile notDollarNl).length ≤ rest.length :=
      length_dropWhile_le_chars notDollarNl rest
    simp only [List.length_tail, List.length_cons] at *
    omega
  · simp

/-- `processMath(html)` from js/markdown.js with KaTeX loaded: first the
block pass, then the inline pass on its output. -/
def processMath (kd ki : List Char → List Char) (html : List Char) :
    List Char :=
  replaceInlineMath ki (replaceBlockMath kd html)

/-- `parse(markdown)` from js/markdown.js with `marked` loaded:
`processMath(marked.parse(markdown))`, where `mp` stands for
`marked.parse`. -/
def parse (mp : String → String) (kd ki : List Char → List Char)
    (markdown : String) : List Char :=
  processMath kd ki (mp markdown).toList

end Markdown

theorem takeWhile_all_append (p : Char → Bool) (l₁ l₂ : List Char)
    (h : ∀ c ∈ l₁, p c = true) :
    (l₁ ++ l₂).takeWhile p = l₁ ++ l₂.takeWhile p := by
  induction l₁ with
  | nil => simp
  | cons a l ih =>
    have ha : p a = true := h a (by simp)
    simp [List.takeWhile_cons, ha, ih (fun c hc => h c (by simp [hc]))]

theorem dropWhile_all_append (p : Char → Bool) (l₁ l₂ : List Char)
    (h : ∀ c ∈ l₁, p c = true) :
    (l₁ ++ l₂).dropWhile p = l₂.dropWhile p := by
  induction l₁ with
  | nil => simp
  | cons a l ih =>
    have ha : p a = true := h a (by simp)
    simp [List.dropWhile_cons, ha, ih (fun c hc => h c (by simp [hc]))]

namespace Markdown

theorem replaceBlockMath_cons_ne (kd : List Char → List Char) (c : Char)
    (rest : List Char) (hc : c ≠ '$') :
    replaceBlockMath kd (c :: rest) = c :: replaceBlockMath kd rest := by
  rw [replaceBlockMath]
  rw [if_neg]
  intro h
  exact hc h.1

theorem replaceBlockMath_cons_match (kd : List Char → List Char)
    (m tail : List Char) (hm1 : m ≠ []) (hm : ∀ c ∈ m, c ≠ '$') :
    replaceBlockMath kd ('$' :: '$' :: (m ++ '$' :: '$' :: tail)) =
      kd (trimChars m) ++ replaceBlockMath kd tail := by
  have hmp : ∀ c ∈ m, notDollar c = true := by
    intro c hc
    simp [notDollar, hm c hc]
  have h1 : (m ++ '$' :: '$' :: tail).takeWhile notDollar = m := by
    rw [takeWhile_all_append _ _ _ hmp]
    simp [List.takeWhile_cons, notDollar]
  have h2 : (m ++ '$' :: '$' :: tail).dropWhile notDollar =
      '$' :: '$' :: tail := by
    rw [dropWhile_all_append _ _ _ hmp]
    simp [List.dropWhile_cons, notDollar]
  rw [replaceBlockMath]
  rw [if_pos]
  · simp only [List.tail_cons, h1, h2]
  · refine ⟨rfl, rfl, ?_, ?_⟩
    · simp only [List.tail_cons, h1]
      exact hm1
    · simp only [List.tail_cons, h2, List.head?_cons]

theorem replaceBlockMath_spec (kd : List Char → List Char)
    (p m tail : List Char) (hp : ∀ c ∈ p, c ≠ '$')
    (hm1 : m ≠ []) (hm : ∀ c ∈ m, c ≠ '$') :
    replaceBlockMath kd (p ++ '$' :: '$' :: (m ++ '$' :: '$' :: tail)) =
      p ++ kd (trimChars m) ++ replaceBlockMath kd tail := by
  induction p with
  | nil => simpa using replaceBlockMath_cons_match kd m tail hm1 hm
  | cons a p ih =>
    have ha : a ≠ '$' := hp a (by simp)
    rw [List.cons_append, replaceBlockMath_cons_ne kd a _ ha,
      ih (fun c hc => hp c (by simp [hc]))]
    simp

theorem replaceInlineMath_cons_ne (ki : List Char → List Char) (c : Char)
    (rest : List Char) (hc : c ≠ '$') :
    replaceInlineMath ki (c :: rest) = c :: replaceInlineMath ki rest := by
  rw [replaceInlineMath]
  rw [if_neg]
  intro h
  exact hc h.1

theorem replaceInlineMath_cons_match (ki : List Char → List Char)
    (m tail : List Char) (hm1 : m ≠ [])
    (hm : ∀ c ∈ m, c ≠ '$' ∧ c ≠ '\n') :
    replaceInlineMath ki ('$' :: (m ++ '$' :: tail)) =
      ki (trimChars m) ++ replaceInlineMath ki tail := by
  have hmp : ∀ c ∈ m, notDollarNl c = true := by
    intro c hc
    simp [notDollarNl, (hm c hc).1, (hm c hc).2]
  have h1 : (m ++ '$' :: tail).takeWhile notDollarNl = m := by
    rw [takeWhile_all_append _ _ _ hmp]
    simp [List.takeWhile_cons, notDollarNl]
  have h2 : (m ++ '$' :: tail).dropWhile notDollarNl = '$' :: tail := by
    rw [dropWhile_all_append _ _ _ hmp]
    simp [List.dropWhile_cons, notDollarNl]
  rw [replaceInlineMath]
  rw [if_pos]
  · simp only [h1, h2, List.tail_cons]
  · refine ⟨rfl, ?_, ?_⟩
    · rw [h1]
      exact hm1
    · rw [h2]
      rfl

theorem replaceInlineMath_spec (ki : List Char → List Char)
    (p m tail : List Char) (hp : ∀ c ∈ p, c ≠ '$')
    (hm1 : m ≠ []) (hm : ∀ c ∈ m, c ≠ '$' ∧ c ≠ '\n') :
    replaceInlineMath ki (p ++ '$' :: (m ++ '$' :: tail)) =
      p ++ ki (trimChars m) ++ replaceInlineMath ki tail := by
  induction p with
  | nil => simpa using replaceInlineMath_cons_match ki m tail hm1 hm
  | cons a p ih =>
    have ha : a ≠ '$' := hp a (by simp)
    rw [List.cons_append, replaceInlineMath_cons_ne ki a _ ha,
      ih (fun c hc => hp c (by simp [hc]))]
    simp

end Markdown

/-- **C3.** `Markdown.parse` composes the third-party parser with the
pattern-based math transform: it returns `processMath(marked.parse(input))`,
where `processMath` first replaces every `$$...$$` block (a delimited
span containing no `$`) by the display-mode KaTeX rendering `kd` of the
trimmed contents, and only afterwards replaces every remaining `$...$`
span (containing no `$` and no newline) by the inline-mode rendering
`ki`. -/
theorem markdown_parse_pipeline (mp : String → String)
    (kd ki : List Char → List Char) (input : String) :
    Markdown.parse mp kd ki input =
      Markdown.replaceInlineMath ki
        (Markdown.replaceBlockMath kd (mp input).toList) ∧
    (∀ p m tail : List Char, (∀ c ∈ p, c ≠ '$') → m ≠ [] →
      (∀ c ∈ m, c ≠ '$') →
      Markdown.replaceBlockMath kd
          (p ++ '$' :: '$' :: (m ++ '$' :: '$' :: tail)) =
        p ++ kd (Markdown.trimChars m) ++ Markdown.replaceBlockMath kd tail) ∧
    (∀ p m tail : List Char, (∀ c ∈ p, c ≠ '$') → m ≠ [] →
      (∀ c ∈ m, c ≠ '$' ∧ c ≠ '\n') →
      Markdown.replaceInlineMath ki (p ++ '$' :: (m ++ '$' :: tail)) =
        p ++ ki (Markdown.trimChars m) ++
          Markdown.replaceInlineMath ki tail) :=
  ⟨rfl,
    fun p m tail hp hm1 hm =>
      Markdown.replaceBlockMath_spec kd p m tail hp hm1 hm,
    fun p m tail hp hm1 hm =>
      Markdown.replaceInlineMath_spec ki p m tail hp hm1 hm⟩

/-- Witness for C3: the block pass at the concrete input `$$x$$`. -/
theorem markdown_parse_pipeline_witness :
    Markdown.replaceBlockMath id
        ([] ++ '$' :: '$' :: (['x'] ++ '$' :: '$' :: [])) =
      [] ++ id (Markdown.trimChars ['x']) ++ Markdown.replaceBlockMath id [] :=
  (markdown_parse_pipeline id id id "").2.1 [] ['x'] []
    (by decide) (by decide) (by decide)

theorem dropWhile_all_nil (p : Char → Bool) (l : List Char)
    (h : ∀ c ∈ l, p c = true) : l.dropWhile p = [] := by
  induction l with
  | nil => rfl
  | cons a l ih =>
    have ha : p a = true := h a (by simp)
    simp [List.dropWhile_cons, ha, ih (fun c hc => h c (by simp [hc]))]

theorem trimChars_all_space (l : List Char)
    (h : ∀ c ∈ l, Markdown.isJsSpace c = true) :
    Markdown.trimChars l = [] := by
  unfold Markdown.trimChars
  rw [dropWhile_all_nil _ _ h]
  rfl

namespace Editor

/-- The editor state the `saveDraft` closure reads and writes: the
textarea element (`none` models a missing `#editor-textarea`, in which
case its `value` is unavailable) and the module-level `currentDraftId`
(`none` models `null`). -/
structure EditorState where
  textarea : Option String
  currentDraftId : Option String
deriving DecidableEq, Repr

/-- `saveDraft()` from js/editor.js: bail out without a textarea, bail
out when `content.trim()` is empty, otherwise derive the title
(`titleOf` stands for `Markdown.extractTitle`), mint a fresh id
`'draft_' + Date.now()` when `currentDraftId` is falsy, and store the
draft through `Storage.saveDraft`.  `now` stands for the clock readings
(`Date.now()` as a string, and the ISO timestamp written by the storage
layer). -/
def saveDraft (titleOf : String → String) (now : String)
    (st : EditorState) (drafts : Storage.DraftsMap) :
    EditorState × Storage.DraftsMap :=
  match st.textarea with
  | none => (st, drafts)
  | some content =>
    if Markdown.trimChars content.toList = [] then (st, drafts)
    else
      let id := match st.currentDraftId with
        | none => "draft_" ++ now
        | some i => if i = "" then "draft_" ++ now else i
      (⟨st.textarea, some id⟩,
        Storage.saveDraft id content (titleOf content) now drafts)

end Editor

/-- **C10.** `Editor.saveDraft` is a no-op on blank content: whenever
the textarea content is empty or consists only of whitespace, it
creates no draft, assigns no draft id, and leaves the stored drafts map
unchanged. -/
theorem editor_saveDraft_blank_noop (titleOf : String → String)
    (now : String) (st : Editor.EditorState) (drafts : Storage.DraftsMap)
    (content : String) (hta : st.textarea = some content)
    (hblank : ∀ c ∈ content.toList, Markdown.isJsSpace c = true) :
    Editor.saveDraft titleOf now st drafts = (st, drafts) := by
  have htrim : Markdown.trimChars content.data = [] :=
    trimChars_all_space content.toList hblank
  unfold Editor.saveDraft
  rw [hta]
  simp [htrim]

/-- Witness for C10: a whitespace-only textarea saves nothing. -/
theorem editor_saveDraft_blank_noop_witness :
    Editor.saveDraft (fun _ => "T") "0" ⟨some "  ", none⟩ [] =
      (⟨some "  ", none⟩, []) :=
  editor_saveDraft_blank_noop (fun _ => "T") "0" ⟨some "  ", none⟩ [] "  "
    rfl (by decide)

namespace GitHub

/-- The character class `\w` of the slug regexes: `[A-Za-z0-9_]`. -/
def isWordChar (c : Char) : Bool :=
  ('a' ≤ c && c ≤ 'z') || ('A' ≤ c && c ≤ 'Z') || ('0' ≤ c && c ≤ '9') ||
    c = '_'

/-- A character survives `.replace(/[^\w\s-]/g, '')` iff it is a word
character, whitespace, or a hyphen. -/
def keepChar (c : Char) : Bool :=
  isWordChar c || Markdown.isJsSpace c || c = '-'

/-- `.replace(/\s+/g, '-')` as a left-to-right scan: a whitespace
character and the whitespace run following it become one hyphen. -/
def collapseWs : List Char → List Char
  | [] => []
  | c :: rest =>
    if Markdown.isJsSpace c then
      '-' :: collapseWs (rest.dropWhile Markdown.isJsSpace)
    else
      c :: collapseWs rest
termination_by l => l.length
decreasing_by
  · have h1 : (rest.dropWhile Markdown.isJsSpace).length ≤ rest.length :=
      Markdown.length_dropWhile_le_chars Markdown.isJsSpace rest
    simp only [List.length_cons]
    omega
  · simp

/-- The slug computation of `createNotebook(title, initialContent)` from
js/github.js: `title.toLowerCase().replace(/[^\w\s-]/g, '')
.replace(/\s+/g, '-').substring(0, 50)`. -/
def createNotebookId (title : String) : List Char :=
  (collapseWs ((title.toList.map Char.toLower).filter keepChar)).take 50

/-- The pure part of `createNotebook(title, initialContent)`: the slug
id, and the initial content
`initialContent || '# ' + title + '\n\nStart writing here...\n'`
(an empty string is falsy). -/
def createNotebook (title initialContent : String) : String × String :=
  ((createNotebookId title).asString,
    if initialContent = "" then
      "# " ++ title ++ "\n\nStart writing here...\n"
    else initialContent)

/-- Modelled from the claim's wording: the maximal runs of whitespace /
non-whitespace characters of a list, in order. -/
def wsRuns : List Char → List (List Char)
  | [] => []
  | c :: rest =>
    if Markdown.isJsSpace c then
      (c :: rest.takeWhile Markdown.isJsSpace) ::
        wsRuns (rest.dropWhile Markdown.isJsSpace)
    else
      (c :: rest.takeWhile (fun x => !Markdown.isJsSpace x)) ::
        wsRuns (rest.dropWhile (fun x => !Markdown.isJsSpace x))
termination_by l => l.length
decreasing_by
  · have h1 : (rest.dropWhile Markdown.isJsSpace).length ≤ rest.length :=
      Markdown.length_dropWhile_le_chars Markdown.isJsSpace rest
    simp only [List.length_cons]
    omega
  · have h1 :
        (rest.dropWhile (fun x => !Markdown.isJsSpace x)).length ≤
          rest.length :=
      Markdown.length_dropWhile_le_chars _ rest
    simp only [List.length_cons]
    omega

/-- The claim's phrasing of the whitespace collapse: replace each
maximal run of whitespace with a single hyphen and keep every other
maximal run unchanged. -/
def collapseWsSpec (l : List Char) : List Char :=
  ((wsRuns l).map (fun run =>
    if Markdown.isJsSpace (run.headD 'x') then ['-'] else run)).flatten

theorem collapseWs_nonws_append (run tail : List Char)
    (h : ∀ c ∈ run, Markdown.isJsSpace c = false) :
    collapseWs (run ++ tail) = run ++ collapseWs tail := by
  induction run with
  | nil => rfl
  | cons a run ih =>
    have ha : Markdown.isJsSpace a = false := h a (by simp)
    rw [List.cons_append, collapseWs, if_neg (by simp [ha]),
      ih (fun c hc => h c (by simp [hc]))]
    rfl

theorem collapseWs_eq_spec : (l : List Char) →
    collapseWs l = collapseWsSpec l
  | [] => by
    rw [collapseWs]
    unfold collapseWsSpec
    rw [wsRuns]
    rfl
  | c :: rest => by
    by_cases hc : Markdown.isJsSpace c = true
    · rw [collapseWs, if_pos hc]
      unfold collapseWsSpec
      rw [wsRuns, if_pos hc]
      rw [List.map_cons, List.flatten_cons, List.headD_cons, hc, if_pos rfl]
      rw [← collapseWsSpec, ← collapseWs_eq_spec (rest.dropWhile Markdown.isJsSpace)]
      rfl
    · have hsplit :
          (c :: rest.takeWhile (fun x => !Markdown.isJsSpace x)) ++
            rest.dropWhile (fun x => !Markdown.isJsSpace x) = c :: rest := by
        rw [List.cons_append, List.takeWhile_append_dropWhile]
      have hall : ∀ x ∈ c :: rest.takeWhile (fun x => !Markdown.isJsSpace x),
          Markdown.isJsSpace x = false := by
        intro x hx
        rcases List.mem_cons.mp hx with h | h
        · subst h
          exact Bool.not_eq_true _ ▸ eq_false_of_ne_true hc
        · have := List.mem_takeWhile_imp h
          simpa using this
      conv_lhs => rw [← hsplit]
      rw [collapseWs_nonws_append _ _ hall]
      unfold collapseWsSpec
      rw [wsRuns, if_neg hc]
      rw [List.map_cons, List.flatten_cons, List.headD_cons]
      rw [if_neg (by simp [hall c (by simp)])]
      rw [← collapseWsSpec,
        ← collapseWs_eq_spec (rest.dropWhile (fun x => !Markdown.isJsSpace x))]
termination_by l => l.length
decreasing_by
  · have h1 : (rest.dropWhile Markdown.isJsSpace).length ≤ rest.length :=
      Markdown.length_dropWhile_le_chars Markdown.isJsSpace rest
    simp only [List.length_cons]
    omega
  · have h1 :
        (rest.dropWhile (fun x => !Markdown.isJsSpace x)).length ≤
          rest.length :=
      Markdown.length_dropWhile_le_chars _ rest
    simp only [List.length_cons]
    omega

end GitHub

/-- **C8.** The notebook id computed by `GitHub.createNotebook(title,
initialContent)` is the slug of the title: lowercase the title, delete
every character that is not a word character, whitespace, or a hyphen,
replace each maximal run of whitespace with a single hyphen, and
truncate to at most 50 characters. -/
theorem github_createNotebook_slug (title initialContent : String) :
    (GitHub.createNotebook title initialContent).1 =
      (GitHub.createNotebookId title).asString ∧
    GitHub.createNotebookId title =
      (GitHub.collapseWsSpec
        ((title.toList.map Char.toLower).filter GitHub.keepChar)).take 50 ∧
    (GitHub.createNotebookId title).length ≤ 50 := by
  refine ⟨rfl, ?_, ?_⟩
  · unfold GitHub.createNotebookId
    rw [GitHub.collapseWs_eq_spec]
  · unfold GitHub.createNotebookId
    simp only [List.length_take]
    omega
